import Mathlib

/-!
Verification of the semi-supervised batch iteration core of the `baal`
Pi-Model repository.

The repository's source contains `experiments/pi_model.py` (the Pi-Model
training module) and `tests/active/ssl_dataset_test.py` (the test of the
semi-supervised iterator).  The iterator itself (`SemiSupervisedIterator`)
and the labeled/pool split (`ActiveLearningDataset`, called
`LabeledPoolSplit` in the specification) live elsewhere in the package, so
they are modelled here from the specification; the Pi-Model module is
embedded from `experiments/pi_model.py` directly.

Machine integers are modelled as `Nat`; Python floats used only through
exact comparisons or left abstract are modelled as `Rat`; fallible
operations return `Except`.
-/

/-- Origin tag of a batch: labeled side or unlabeled pool side. -/
inductive Origin where
  | labeled
  | unlabeled
  deriving DecidableEq

/-- A deterministic linear congruential pseudo-random step, standing in for
the iterator's seeded shuffling RNG (`shuffle_seed` option). -/
def lcg (s : Nat) : Nat :=
  (1103515245 * s + 12345) % 2147483648

/-- Modelled from the spec: seeded Fisher-Yates-style shuffle (the
"independently shuffled permutations" of §3), written with structural fuel
so it evaluates by kernel reduction.  The fuel is always the list length. -/
def shuffleFuel : Nat → Nat → List Nat → List Nat
  | 0, _, l => l
  | fuel + 1, s, l =>
    match l with
    | [] => []
    | x :: xs =>
      (x :: xs).getD (s % (xs.length + 1)) 0 ::
        shuffleFuel fuel (lcg s) ((x :: xs).erase ((x :: xs).getD (s % (xs.length + 1)) 0))

/-- Modelled from the spec: the per-epoch seeded shuffle of an index list. -/
def shuffle (s : Nat) (l : List Nat) : List Nat :=
  shuffleFuel l.length s l

/-- Modelled from the spec: split a list into consecutive batches of size
`bs`; the final batch may be partial but is still emitted (§4.2). -/
def chunksFuel (bs : Nat) : Nat → List Nat → List (List Nat)
  | 0, l => if l.isEmpty then [] else [l]
  | fuel + 1, l =>
    if l.isEmpty then []
    else l.take bs :: chunksFuel bs fuel (l.drop bs)

/-- Batches of size `bs` covering `l` in order. -/
def chunks (bs : Nat) (l : List Nat) : List (List Nat) :=
  chunksFuel bs l.length l

/-- Modelled from the spec: proportional interleaving of the labeled batch
stream and the unlabeled batch stream (ratio mode, §4.2): at each step the
stream whose emitted share is smaller relative to its total goes next, so
the two streams finish at approximately the same position. -/
def ratioMergeFuel (nL nU : Nat) : Nat → List (List Nat) → List (List Nat) → Nat → Nat → List (Origin × List Nat)
  | 0, ls, us, _, _ =>
    ls.map (fun b => (Origin.labeled, b)) ++ us.map (fun b => (Origin.unlabeled, b))
  | fuel + 1, ls, us, eL, eU =>
    match ls, us with
    | [], rest => rest.map (fun b => (Origin.unlabeled, b))
    | l :: ls2, [] => (Origin.labeled, l) :: ratioMergeFuel nL nU fuel ls2 [] (eL + 1) eU
    | l :: ls2, u :: us2 =>
      if (eL + 1) * nU ≤ (eU + 1) * nL then
        (Origin.labeled, l) :: ratioMergeFuel nL nU fuel ls2 (u :: us2) (eL + 1) eU
      else
        (Origin.unlabeled, u) :: ratioMergeFuel nL nU fuel (l :: ls2) us2 eL (eU + 1)

/-- Modelled from the spec: Bernoulli mixing (`mix_probability` mode, §4.2):
each batch slot is drawn labeled with probability `p` from the seeded RNG
stream; an exhausted stream falls back to the other one. -/
def bernoulliMergeFuel (p : Rat) : Nat → Nat → List (List Nat) → List (List Nat) → List (Origin × List Nat)
  | 0, _, ls, us =>
    ls.map (fun b => (Origin.labeled, b)) ++ us.map (fun b => (Origin.unlabeled, b))
  | fuel + 1, st, ls, us =>
    match ls, us with
    | [], rest => rest.map (fun b => (Origin.unlabeled, b))
    | l :: ls2, [] => (Origin.labeled, l) :: bernoulliMergeFuel p fuel (lcg st) ls2 []
    | l :: ls2, u :: us2 =>
      if ((st % 1048576 : Nat) : Rat) / 1048576 < p then
        (Origin.labeled, l) :: bernoulliMergeFuel p fuel (lcg st) ls2 (u :: us2)
      else
        (Origin.unlabeled, u) :: bernoulliMergeFuel p fuel (lcg st) (l :: ls2) us2

/-- Modelled from the spec: `LabeledPoolSplit` (§3, §4.1) — a partition of
`[0, total_size)` into labeled indices (kept sorted for deterministic
iteration) and the unlabeled pool. -/
structure Split where
  total_size : Nat
  labeled_indices : List Nat
  pool_indices : List Nat
  deriving DecidableEq

/-- Errors of the split's operations (§7). -/
inductive SplitError where
  | invalidSize
  | indexOutOfRange
  | insufficientPool
  deriving DecidableEq

/-- Modelled from the spec: `new(total_size)` — all indices start unlabeled;
`InvalidSize` when `total_size = 0` (§4.1). -/
def Split.new (total_size : Nat) : Except SplitError Split :=
  if total_size = 0 then Except.error SplitError.invalidSize
  else Except.ok { total_size := total_size, labeled_indices := [], pool_indices := List.range total_size }

/-- Move one index from the pool to the labeled set; a no-op when already
labeled (§4.1 idempotence). -/
def labelOne (s : Split) (i : Nat) : Split :=
  if i ∈ s.labeled_indices then s
  else { s with labeled_indices := s.labeled_indices.orderedInsert (· ≤ ·) i,
                pool_indices := s.pool_indices.erase i }

/-- Modelled from the spec: `label(indices)` — moves each valid index from
pool to labeled; an index outside `[0, total_size)` is `IndexOutOfRange`
(§4.1). -/
def Split.label (s : Split) : List Nat → Except SplitError Split
  | [] => Except.ok s
  | i :: rest =>
    if i < s.total_size then Split.label (labelOne s i) rest
    else Except.error SplitError.indexOutOfRange

/-- Modelled from the spec: `label_randomly(count, rng)` — draws `count`
distinct indices without replacement from the current pool and labels them;
`InsufficientPool` when `count` exceeds the pool size (§4.1). -/
def Split.label_randomly (s : Split) (count : Nat) (seed : Nat) : Except SplitError Split :=
  if count ≤ s.pool_indices.length then
    Except.ok (((shuffle seed s.pool_indices).take count).foldl labelOne s)
  else Except.error SplitError.insufficientPool

/-- `labeled_count()` accessor (§4.1). -/
def Split.labeled_count (s : Split) : Nat :=
  s.labeled_indices.length

/-- `pool_count()` accessor (§4.1). -/
def Split.pool_count (s : Split) : Nat :=
  s.pool_indices.length

/-- The split states reachable through the public lifecycle: construction by
`new` followed by any sequence of `label` / `label_randomly` calls (§3). -/
inductive Reachable : Split → Prop
  | new (n : Nat) (s : Split) : Split.new n = Except.ok s → Reachable s
  | label (s : Split) (idxs : List Nat) (s2 : Split) :
      Reachable s → s.label idxs = Except.ok s2 → Reachable s2
  | label_randomly (s : Split) (count seed : Nat) (s2 : Split) :
      Reachable s → s.label_randomly count seed = Except.ok s2 → Reachable s2

/-- Modelled from the spec: the iterator's configuration surface (§6). -/
structure IterConfig where
  batch_size : Nat
  mix_probability : Option Rat
  step_count : Option Nat
  shuffle_seed : Option Nat
  deriving DecidableEq

/-- Modelled from the spec: construction-time validation (§7,
`InvalidConfig`): positive batch size, and `mix_probability` mutually
exclusive with `step_count`. -/
def checkConfig (cfg : IterConfig) : Bool :=
  decide (1 ≤ cfg.batch_size) && !(cfg.mix_probability.isSome && cfg.step_count.isSome)

/-- Modelled from the spec: one epoch of `SemiSupervisedIterator` (§4.2) at
the index level.  The current labeled and pool index sets are snapshotted,
independently shuffled from the seed, cut into `batch_size` batches, and the
two tagged batch streams are merged per the active policy: Bernoulli draws
under `mix_probability`, exactly `step_count` batches under `step_count`,
and full proportional interleaving in ratio mode. -/
def epochBatches (split : Split) (cfg : IterConfig) (seed : Nat) : List (Origin × List Nat) :=
  let labPerm := shuffle (lcg seed) split.labeled_indices
  let poolPerm := shuffle (lcg (lcg seed)) split.pool_indices
  let labB := chunks cfg.batch_size labPerm
  let poolB := chunks cfg.batch_size poolPerm
  match cfg.mix_probability, cfg.step_count with
  | some p, _ => bernoulliMergeFuel p (labB.length + poolB.length) (lcg (lcg (lcg seed))) labB poolB
  | none, some k => (ratioMergeFuel labB.length poolB.length (labB.length + poolB.length) labB poolB 0 0).take k
  | none, none => ratioMergeFuel labB.length poolB.length (labB.length + poolB.length) labB poolB 0 0

/-- Modelled from the spec: the seed actually driving the shuffles — the
configured `shuffle_seed` when present, otherwise external entropy (§6). -/
def effectiveSeed (cfg : IterConfig) (entropy : Nat) : Nat :=
  match cfg.shuffle_seed with
  | some s => s
  | none => entropy

/-- Modelled from the spec: the batch sequence over `numEpochs` epochs; each
epoch reshuffles from a fresh per-epoch seed (§4.2 epoch lifecycle). -/
def batchStream (split : Split) (cfg : IterConfig) (entropy : Nat) (numEpochs : Nat) : List (Origin × List Nat) :=
  (List.range numEpochs).flatMap (fun k => epochBatches split cfg (effectiveSeed cfg entropy + k))

/-- `is_labeled(batch)` helper (§4.2): checks the tag. -/
def is_labeled (b : Origin × List Nat) : Bool :=
  b.1 == Origin.labeled

/-- `get_batch(batch)` helper (§4.2): strips the tag. -/
def get_batch (b : Origin × List Nat) : List Nat :=
  b.2

/-- Payload of a labeled-tagged batch, `none` otherwise. -/
def labeledPayload : Origin × List Nat → Option (List Nat)
  | (Origin.labeled, b) => some b
  | (Origin.unlabeled, _) => none

/-- Payload of an unlabeled-tagged batch, `none` otherwise. -/
def unlabeledPayload : Origin × List Nat → Option (List Nat)
  | (Origin.labeled, _) => none
  | (Origin.unlabeled, b) => some b

/-- Fetch the underlying samples of an index batch through the dataset's
`get` function, keeping the tag (§4.2 "fetch the underlying samples"). -/
def fetchBatch (get : Nat → Nat) (b : Origin × List Nat) : Origin × List Nat :=
  (b.1, b.2.map get)

/-- One epoch of the iterator at the sample level. -/
def epochSamples (get : Nat → Nat) (split : Split) (cfg : IterConfig) (seed : Nat) : List (Origin × List Nat) :=
  (epochBatches split cfg seed).map (fetchBatch get)

/-- The test dataset of `tests/active/ssl_dataset_test.py`: a concatenation
of 100 even values `0, 2, …, 198` (labeled side) followed by 1000 odd
values `1, 3, …, 1999` (unlabeled side). -/
def testGet (i : Nat) : Nat :=
  if i < 100 then 2 * i else 2 * (i - 100) + 1

/-- The split of the test's `setUp`: 1100 samples, indices `0..99` labeled,
`100..1099` in the pool. -/
def testSplit : Split :=
  { total_size := 1100, labeled_indices := List.range 100, pool_indices := List.range' 100 1000 }

/-- The iterator configuration of the test: `batch_size = 10`, `p = None`,
`num_steps = None` (ratio mode). -/
def testCfg : IterConfig :=
  { batch_size := 10, mix_probability := none, step_count := none, shuffle_seed := none }

/-!
Embedding of `experiments/pi_model.py` (the part of the source the claims
C8-C10 are about).  Python floats that are only compared exactly or carried
opaquely are modelled as `Rat`; the transcendental `rampup_value()`
(`np.exp`) is abstracted as an explicit `Rat` argument where it is consumed;
the stochastic tensor augmentations (`GaussianNoise`, `RandomTranslation`)
and the network are abstracted as functions, since `forward` only routes
around them.
-/

/-- Hyperparameters of `PIModel` (the argparse surface of
`add_model_specific_args` plus the `p` option consumed by the baseline
assertion; `p` is optional, matching an unset `--p`). -/
structure PIHparams where
  baseline : Bool
  p : Option Rat
  w_max : Rat
  lr : Rat
  rampup_stop : Nat
  rampdown_start : Nat
  epochs : Nat
  batch_size : Nat
  deriving DecidableEq

/-- The failure mode of `PIModel.__init__`: the `assert` on line 77 of
`experiments/pi_model.py`. -/
inductive PIError where
  | assertionError
  deriving DecidableEq

/-- The state `PIModel.__init__` establishes that later steps read. -/
structure PIModel where
  hparams : PIHparams
  max_unsupervised_weight : Rat
  deriving DecidableEq

/-- `PIModel.__init__` (lines 64-83 of `experiments/pi_model.py`):
computes `max_unsupervised_weight = w_max * M / N` with `M` the labeled
set size and `N` the full dataset size, then asserts `p == 1` whenever
`baseline` is set. -/
def PIModel.init (trainSetLen poolLen : Nat) (hp : PIHparams) : Except PIError PIModel :=
  let M : Rat := trainSetLen
  let N : Rat := trainSetLen + poolLen
  let w := hp.w_max * M / N
  if hp.baseline = true ∧ hp.p ≠ some 1 then Except.error PIError.assertionError
  else Except.ok { hparams := hp, max_unsupervised_weight := w }

/-- `PIModel.forward` (lines 85-100): apply `random_crop` then
`gaussian_noise` only in training mode, then the network. -/
def PIModel.forward (training : Bool) (network random_crop gaussian_noise : α → α) (x : α) : α :=
  if training then network (gaussian_noise (random_crop x))
  else network x

/-- One parameter group of the torch optimizer; `payload` stands for every
field other than the learning rate. -/
structure ParamGroup where
  lr : Rat
  payload : Nat
  deriving DecidableEq

/-- The optimizer state `optimizer_step` acts on: its parameter groups plus
counters recording how often `step()` and `zero_grad()` ran. -/
structure OptimizerState where
  param_groups : List ParamGroup
  step_calls : Nat
  zero_grad_calls : Nat
  deriving DecidableEq

/-- `PIModel.optimizer_step` (lines 167-176): while
`current_epoch < rampup_stop`, overwrite each group's learning rate with
`rampup_value() * lr` (the ramp value is the `rampup_val` argument); the
`elif` rampdown branch is `pass`; then always call `step()` and
`zero_grad()`. -/
def PIModel.optimizer_step (current_epoch : Nat) (hp : PIHparams) (rampup_val : Rat) (opt : OptimizerState) : OptimizerState :=
  let opt1 :=
    if current_epoch < hp.rampup_stop then
      { opt with param_groups := opt.param_groups.map (fun pg => { pg with lr := rampup_val * hp.lr }) }
    else if hp.epochs - hp.rampdown_start < current_epoch then
      opt
    else
      opt
  let opt2 := { opt1 with step_calls := opt1.step_calls + 1 }
  { opt2 with zero_grad_calls := opt2.zero_grad_calls + 1 }

/-! ### Facts about the shuffle: it permutes its input. -/

theorem shuffleFuel_perm (fuel : Nat) : ∀ (s : Nat) (l : List Nat), (shuffleFuel fuel s l).Perm l := by
  induction fuel with
  | zero => intro s l; simp [shuffleFuel]
  | succ n ih =>
    intro s l
    cases l with
    | nil => simp [shuffleFuel]
    | cons x xs =>
      have hlt : s % (xs.length + 1) < (x :: xs).length := by
        simp [Nat.mod_lt]
      have hm : (x :: xs).getD (s % (xs.length + 1)) 0 ∈ x :: xs := by
        rw [List.getD_eq_getElem _ _ hlt]
        exact List.getElem_mem hlt
      have key : shuffleFuel (n + 1) s (x :: xs)
          = (x :: xs).getD (s % (xs.length + 1)) 0 ::
              shuffleFuel n (lcg s) ((x :: xs).erase ((x :: xs).getD (s % (xs.length + 1)) 0)) := by
        simp [shuffleFuel]
      rw [key]
      exact ((ih _ _).cons _).trans (List.perm_cons_erase hm).symm

theorem shuffle_perm (s : Nat) (l : List Nat) : (shuffle s l).Perm l :=
  shuffleFuel_perm l.length s l

theorem shuffle_length (s : Nat) (l : List Nat) : (shuffle s l).length = l.length :=
  (shuffle_perm s l).length_eq

/-! ### Facts about chunking: batches concatenate back to the list, their
count is the ceiling of the length over the batch size, and every element of
a batch comes from the list. -/

theorem chunksFuel_flatten (bs : Nat) : ∀ (fuel : Nat) (l : List Nat), (chunksFuel bs fuel l).flatten = l := by
  intro fuel
  induction fuel with
  | zero =>
    intro l
    cases l <;> simp [chunksFuel]
  | succ n ih =>
    intro l
    cases l with
    | nil => simp [chunksFuel]
    | cons x xs =>
      simp [chunksFuel, ih]

theorem chunks_flatten (bs : Nat) (l : List Nat) : (chunks bs l).flatten = l :=
  chunksFuel_flatten bs l.length l

theorem chunksFuel_length (bs : Nat) (hbs : 1 ≤ bs) :
    ∀ (fuel : Nat) (l : List Nat), l.length ≤ fuel →
      (chunksFuel bs fuel l).length = (l.length + bs - 1) / bs := by
  intro fuel
  induction fuel with
  | zero =>
    intro l hl
    have : l = [] := List.eq_nil_of_length_eq_zero (Nat.le_zero.mp hl)
    subst this
    simp [chunksFuel, Nat.div_eq_of_lt, Nat.sub_lt hbs]
  | succ n ih =>
    intro l hl
    cases l with
    | nil => simp [chunksFuel, Nat.div_eq_of_lt, Nat.sub_lt hbs]
    | cons x xs =>
      have hdrop : ((x :: xs).drop bs).length ≤ n := by
        simp only [List.length_drop, List.length_cons]
        simp only [List.length_cons] at hl
        omega
      have hrec := ih ((x :: xs).drop bs) hdrop
      have hlen : ((x :: xs).drop bs).length = xs.length + 1 - bs := by
        simp [List.length_drop]
      rw [hlen] at hrec
      have hgoal : (xs.length + 1 - bs + bs - 1) / bs = (xs.length + 1 - 1) / bs := by
        rcases Nat.le_total bs (xs.length + 1) with hle | hgt
        · have : xs.length + 1 - bs + bs - 1 = xs.length + 1 - 1 := by omega
          rw [this]
        · have h1 : xs.length + 1 - bs = 0 := by omega
          rw [h1]
          rw [Nat.div_eq_of_lt (by omega), Nat.div_eq_of_lt (by omega)]
      have hmain : (xs.length + 1 + bs - 1) / bs = (xs.length + 1 - 1) / bs + 1 := by
        have h2 : xs.length + 1 + bs - 1 = (xs.length + 1 - 1) + bs := by omega
        rw [h2, Nat.add_div_right _ hbs]
      simp only [chunksFuel, List.isEmpty_cons, Bool.false_eq_true, if_false, List.length_cons]
      rw [hrec, hgoal, hmain]

theorem chunks_length (bs : Nat) (hbs : 1 ≤ bs) (l : List Nat) :
    (chunks bs l).length = (l.length + bs - 1) / bs :=
  chunksFuel_length bs hbs l.length l (Nat.le_refl _)

theorem chunksFuel_mem (bs : Nat) :
    ∀ (fuel : Nat) (l b : List Nat), b ∈ chunksFuel bs fuel l → ∀ x ∈ b, x ∈ l := by
  intro fuel
  induction fuel with
  | zero =>
    intro l b hb x hx
    cases l with
    | nil => simp [chunksFuel] at hb
    | cons y ys =>
      simp [chunksFuel] at hb
      subst hb
      exact hx
  | succ n ih =>
    intro l b hb x hx
    cases l with
    | nil => simp [chunksFuel] at hb
    | cons y ys =>
      simp only [chunksFuel, List.isEmpty_cons, Bool.false_eq_true, if_false, List.mem_cons] at hb
      rcases hb with hb | hb
      · subst hb
        exact List.take_subset _ _ hx
      · exact List.drop_subset _ _ (ih _ _ hb x hx)

theorem chunks_mem (bs : Nat) (l b : List Nat) (hb : b ∈ chunks bs l) : ∀ x ∈ b, x ∈ l :=
  chunksFuel_mem bs l.length l b hb

/-! ### Facts about the merge policies: the labeled-tagged payloads of a
merged stream are exactly the labeled batch stream, in order, and likewise
for the unlabeled side. -/

theorem filterMap_labeled_of_labeled_tag (ls : List (List Nat)) :
    (ls.map (fun b => (Origin.labeled, b))).filterMap labeledPayload = ls := by
  induction ls with
  | nil => simp
  | cons a t ih => simp [labeledPayload, ih]

theorem filterMap_labeled_of_unlabeled_tag (us : List (List Nat)) :
    (us.map (fun b => (Origin.unlabeled, b))).filterMap labeledPayload = [] := by
  induction us with
  | nil => simp
  | cons a t ih => simp [labeledPayload, ih]

theorem filterMap_unlabeled_of_labeled_tag (ls : List (List Nat)) :
    (ls.map (fun b => (Origin.labeled, b))).filterMap unlabeledPayload = [] := by
  induction ls with
  | nil => simp
  | cons a t ih => simp [unlabeledPayload, ih]

theorem filterMap_unlabeled_of_unlabeled_tag (us : List (List Nat)) :
    (us.map (fun b => (Origin.unlabeled, b))).filterMap unlabeledPayload = us := by
  induction us with
  | nil => simp
  | cons a t ih => simp [unlabeledPayload, ih]

theorem ratioMergeFuel_filterMap_labeled (nL nU : Nat) :
    ∀ (fuel : Nat) (ls us : List (List Nat)) (eL eU : Nat),
      (ratioMergeFuel nL nU fuel ls us eL eU).filterMap labeledPayload = ls := by
  intro fuel
  induction fuel with
  | zero =>
    intro ls us eL eU
    simp only [ratioMergeFuel]
    rw [List.filterMap_append, filterMap_labeled_of_labeled_tag,
      filterMap_labeled_of_unlabeled_tag, List.append_nil]
  | succ n ih =>
    intro ls us eL eU
    cases ls with
    | nil =>
      simp only [ratioMergeFuel]
      exact filterMap_labeled_of_unlabeled_tag us
    | cons l ls2 =>
      cases us with
      | nil => simp [ratioMergeFuel, List.filterMap_cons, labeledPayload, ih]
      | cons u us2 =>
        by_cases h : (eL + 1) * nU ≤ (eU + 1) * nL <;>
          simp [ratioMergeFuel, h, List.filterMap_cons, labeledPayload, ih]

theorem ratioMergeFuel_filterMap_unlabeled (nL nU : Nat) :
    ∀ (fuel : Nat) (ls us : List (List Nat)) (eL eU : Nat),
      (ratioMergeFuel nL nU fuel ls us eL eU).filterMap unlabeledPayload = us := by
  intro fuel
  induction fuel with
  | zero =>
    intro ls us eL eU
    simp only [ratioMergeFuel]
    rw [List.filterMap_append, filterMap_unlabeled_of_labeled_tag,
      filterMap_unlabeled_of_unlabeled_tag, List.nil_append]
  | succ n ih =>
    intro ls us eL eU
    cases ls with
    | nil =>
      simp only [ratioMergeFuel]
      exact filterMap_unlabeled_of_unlabeled_tag us
    | cons l ls2 =>
      cases us with
      | nil => simp [ratioMergeFuel, List.filterMap_cons, unlabeledPayload, ih]
      | cons u us2 =>
        by_cases h : (eL + 1) * nU ≤ (eU + 1) * nL <;>
          simp [ratioMergeFuel, h, List.filterMap_cons, unlabeledPayload, ih]

theorem bernoulliMergeFuel_filterMap_labeled (p : Rat) :
    ∀ (fuel st : Nat) (ls us : List (List Nat)),
      (bernoulliMergeFuel p fuel st ls us).filterMap labeledPayload = ls := by
  intro fuel
  induction fuel with
  | zero =>
    intro st ls us
    simp only [bernoulliMergeFuel]
    rw [List.filterMap_append, filterMap_labeled_of_labeled_tag,
      filterMap_labeled_of_unlabeled_tag, List.append_nil]
  | succ n ih =>
    intro st ls us
    cases ls with
    | nil =>
      simp only [bernoulliMergeFuel]
      exact filterMap_labeled_of_unlabeled_tag us
    | cons l ls2 =>
      cases us with
      | nil => simp [bernoulliMergeFuel, List.filterMap_cons, labeledPayload, ih]
      | cons u us2 =>
        by_cases h : ((st % 1048576 : Nat) : Rat) / 1048576 < p <;>
          simp [bernoulliMergeFuel, h, List.filterMap_cons, labeledPayload, ih]

theorem bernoulliMergeFuel_filterMap_unlabeled (p : Rat) :
    ∀ (fuel st : Nat) (ls us : List (List Nat)),
      (bernoulliMergeFuel p fuel st ls us).filterMap unlabeledPayload = us := by
  intro fuel
  induction fuel with
  | zero =>
    intro st ls us
    simp only [bernoulliMergeFuel]
    rw [List.filterMap_append, filterMap_unlabeled_of_labeled_tag,
      filterMap_unlabeled_of_unlabeled_tag, List.nil_append]
  | succ n ih =>
    intro st ls us
    cases ls with
    | nil =>
      simp only [bernoulliMergeFuel]
      exact filterMap_unlabeled_of_unlabeled_tag us
    | cons l ls2 =>
      cases us with
      | nil => simp [bernoulliMergeFuel, List.filterMap_cons, unlabeledPayload, ih]
      | cons u us2 =>
        by_cases h : ((st % 1048576 : Nat) : Rat) / 1048576 < p <;>
          simp [bernoulliMergeFuel, h, List.filterMap_cons, unlabeledPayload, ih]

/-! ### The split's partition invariant and how the lifecycle preserves it. -/

/-- The split's internal consistency: both index lists are duplicate-free,
disjoint, together cover exactly `[0, total_size)`, and their sizes add up
to the total. -/
def Split.Inv (s : Split) : Prop :=
  s.labeled_indices.Nodup ∧ s.pool_indices.Nodup ∧
  (∀ i, i ∈ s.labeled_indices → i ∉ s.pool_indices) ∧
  (∀ i, (i ∈ s.labeled_indices ∨ i ∈ s.pool_indices) ↔ i < s.total_size) ∧
  s.labeled_indices.length + s.pool_indices.length = s.total_size

theorem labelOne_total_size (s : Split) (i : Nat) : (labelOne s i).total_size = s.total_size := by
  unfold labelOne
  split <;> rfl

theorem labelOne_inv (s : Split) (i : Nat) (hi : i < s.total_size) (h : s.Inv) : (labelOne s i).Inv := by
  obtain ⟨hnl, hnp, hdisj, huniv, hlen⟩ := h
  unfold labelOne
  by_cases hmem : i ∈ s.labeled_indices
  · rw [if_pos hmem]
    exact ⟨hnl, hnp, hdisj, huniv, hlen⟩
  · have hpool : i ∈ s.pool_indices := by
      rcases (huniv i).mpr hi with h | h
      · exact absurd h hmem
      · exact h
    rw [if_neg hmem]
    refine ⟨?_, ?_, ?_, ?_, ?_⟩
    · exact (List.perm_orderedInsert (· ≤ ·) i _).symm.nodup (List.nodup_cons.mpr ⟨hmem, hnl⟩)
    · exact List.Nodup.erase i hnp
    · intro j hj
      rcases (List.mem_orderedInsert (· ≤ ·)).mp hj with rfl | hj2
      · intro hc
        exact ((List.Nodup.mem_erase_iff hnp).mp hc).1 rfl
      · intro hc
        exact hdisj j hj2 (List.mem_of_mem_erase hc)
    · intro j
      constructor
      · intro hj
        rcases hj with hj | hj
        · rcases (List.mem_orderedInsert (· ≤ ·)).mp hj with rfl | hj2
          · exact hi
          · exact (huniv j).mp (Or.inl hj2)
        · exact (huniv j).mp (Or.inr (List.mem_of_mem_erase hj))
      · intro hj
        rcases (huniv j).mpr hj with hj2 | hj2
        · exact Or.inl ((List.mem_orderedInsert (· ≤ ·)).mpr (Or.inr hj2))
        · by_cases hji : j = i
          · exact Or.inl ((List.mem_orderedInsert (· ≤ ·)).mpr (Or.inl hji))
          · exact Or.inr ((List.Nodup.mem_erase_iff hnp).mpr ⟨hji, hj2⟩)
    · have h1 := List.orderedInsert_length (· ≤ ·) s.labeled_indices i
      have h2 := List.length_erase_of_mem hpool
      have h3 := List.length_pos_of_mem hpool
      simp only [Split.labeled_count, Split.pool_count] at *
      omega

theorem foldl_labelOne_inv :
    ∀ (l : List Nat) (s : Split), s.Inv → (∀ i ∈ l, i < s.total_size) → (l.foldl labelOne s).Inv := by
  intro l
  induction l with
  | nil => intro s h _; exact h
  | cons i rest ih =>
    intro s h hall
    simp only [List.foldl_cons]
    apply ih
    · exact labelOne_inv s i (hall i (List.mem_cons_self i rest)) h
    · intro j hj
      rw [labelOne_total_size]
      exact hall j (List.mem_cons_of_mem _ hj)

theorem label_preserves_inv :
    ∀ (idxs : List Nat) (s s2 : Split), s.Inv → s.label idxs = Except.ok s2 → s2.Inv := by
  intro idxs
  induction idxs with
  | nil =>
    intro s s2 h he
    simp only [Split.label] at he
    cases he
    exact h
  | cons i rest ih =>
    intro s s2 h he
    simp only [Split.label] at he
    by_cases hi : i < s.total_size
    · rw [if_pos hi] at he
      exact ih _ _ (labelOne_inv s i hi h) he
    · rw [if_neg hi] at he
      cases he

theorem reachable_inv (s : Split) (h : Reachable s) : s.Inv := by
  induction h with
  | new n s hn =>
    unfold Split.new at hn
    by_cases h0 : n = 0
    · rw [if_pos h0] at hn
      cases hn
    · rw [if_neg h0] at hn
      cases hn
      refine ⟨List.nodup_nil, List.nodup_range n, ?_, ?_, ?_⟩
      · intro i hi
        cases hi
      · intro i
        simp [List.mem_range]
      · simp
  | label s idxs s2 _ he ih => exact label_preserves_inv idxs s s2 ih he
  | label_randomly s count seed s2 _ he ih =>
    unfold Split.label_randomly at he
    by_cases hc : count ≤ s.pool_indices.length
    · rw [if_pos hc] at he
      cases he
      apply foldl_labelOne_inv _ _ ih
      intro i hi
      have h1 : i ∈ shuffle seed s.pool_indices := List.take_subset _ _ hi
      have h2 : i ∈ s.pool_indices := (shuffle_perm seed _).mem_iff.mp h1
      exact (ih.2.2.2.1 i).mp (Or.inr h2)
    · rw [if_neg hc] at he
      cases he

/-! ### Idempotence of labeling and error characterizations. -/

theorem labelOne_mem (s : Split) (i : Nat) : i ∈ (labelOne s i).labeled_indices := by
  unfold labelOne
  by_cases h : i ∈ s.labeled_indices
  · rw [if_pos h]
    exact h
  · rw [if_neg h]
    exact (List.mem_orderedInsert (· ≤ ·)).mpr (Or.inl rfl)

theorem labelOne_idem (s : Split) (i : Nat) : labelOne (labelOne s i) i = labelOne s i := by
  rw [labelOne]
  rw [if_pos (labelOne_mem s i)]

theorem label_single (s : Split) (i : Nat) (h : i < s.total_size) :
    s.label [i] = Except.ok (labelOne s i) := by
  simp only [Split.label]
  rw [if_pos h]

theorem label_error_iff :
    ∀ (idxs : List Nat) (s : Split),
      (∃ e, s.label idxs = Except.error e) ↔ ∃ i ∈ idxs, s.total_size ≤ i := by
  intro idxs
  induction idxs with
  | nil =>
    intro s
    simp [Split.label]
  | cons i rest ih =>
    intro s
    simp only [Split.label]
    by_cases hi : i < s.total_size
    · rw [if_pos hi, ih (labelOne s i), labelOne_total_size]
      constructor
      · intro ⟨j, hj, hsz⟩
        exact ⟨j, List.mem_cons_of_mem _ hj, hsz⟩
      · intro ⟨j, hj, hsz⟩
        rcases List.mem_cons.mp hj with rfl | hj2
        · omega
        · exact ⟨j, hj2, hsz⟩
    · rw [if_neg hi]
      constructor
      · intro _
        exact ⟨i, List.mem_cons_self i rest, by omega⟩
      · intro _
        exact ⟨SplitError.indexOutOfRange, rfl⟩

/-! ### Epoch-level facts: what one epoch's labeled and unlabeled batch
streams are, in each mixing mode. -/

theorem epoch_filterMap_labeled (split : Split) (cfg : IterConfig) (seed : Nat)
    (hp : cfg.mix_probability = none) (hn : cfg.step_count = none) :
    (epochBatches split cfg seed).filterMap labeledPayload
      = chunks cfg.batch_size (shuffle (lcg seed) split.labeled_indices) := by
  simp only [epochBatches, hp, hn]
  rw [ratioMergeFuel_filterMap_labeled]

theorem epoch_filterMap_unlabeled (split : Split) (cfg : IterConfig) (seed : Nat)
    (hp : cfg.mix_probability = none) (hn : cfg.step_count = none) :
    (epochBatches split cfg seed).filterMap unlabeledPayload
      = chunks cfg.batch_size (shuffle (lcg (lcg seed)) split.pool_indices) := by
  simp only [epochBatches, hp, hn]
  rw [ratioMergeFuel_filterMap_unlabeled]

theorem epoch_labeled_payload_sub (split : Split) (cfg : IterConfig) (seed : Nat) :
    ∀ pl ∈ (epochBatches split cfg seed).filterMap labeledPayload,
      pl ∈ chunks cfg.batch_size (shuffle (lcg seed) split.labeled_indices) := by
  intro pl hpl
  simp only [epochBatches] at hpl
  cases hmp : cfg.mix_probability with
  | some p =>
    rw [hmp] at hpl
    rwa [bernoulliMergeFuel_filterMap_labeled] at hpl
  | none =>
    cases hsc : cfg.step_count with
    | some k =>
      rw [hmp, hsc] at hpl
      rcases List.mem_filterMap.mp hpl with ⟨a, ha, hfa⟩
      have ha2 := List.take_subset k _ ha
      have : pl ∈ (ratioMergeFuel
          (chunks cfg.batch_size (shuffle (lcg seed) split.labeled_indices)).length
          (chunks cfg.batch_size (shuffle (lcg (lcg seed)) split.pool_indices)).length
          ((chunks cfg.batch_size (shuffle (lcg seed) split.labeled_indices)).length +
            (chunks cfg.batch_size (shuffle (lcg (lcg seed)) split.pool_indices)).length)
          (chunks cfg.batch_size (shuffle (lcg seed) split.labeled_indices))
          (chunks cfg.batch_size (shuffle (lcg (lcg seed)) split.pool_indices)) 0 0).filterMap
            labeledPayload :=
        List.mem_filterMap.mpr ⟨a, ha2, hfa⟩
      rwa [ratioMergeFuel_filterMap_labeled] at this
    | none =>
      rw [hmp, hsc] at hpl
      rwa [ratioMergeFuel_filterMap_labeled] at hpl

theorem epoch_unlabeled_payload_sub (split : Split) (cfg : IterConfig) (seed : Nat) :
    ∀ pl ∈ (epochBatches split cfg seed).filterMap unlabeledPayload,
      pl ∈ chunks cfg.batch_size (shuffle (lcg (lcg seed)) split.pool_indices) := by
  intro pl hpl
  simp only [epochBatches] at hpl
  cases hmp : cfg.mix_probability with
  | some p =>
    rw [hmp] at hpl
    rwa [bernoulliMergeFuel_filterMap_unlabeled] at hpl
  | none =>
    cases hsc : cfg.step_count with
    | some k =>
      rw [hmp, hsc] at hpl
      rcases List.mem_filterMap.mp hpl with ⟨a, ha, hfa⟩
      have ha2 := List.take_subset k _ ha
      have : pl ∈ (ratioMergeFuel
          (chunks cfg.batch_size (shuffle (lcg seed) split.labeled_indices)).length
          (chunks cfg.batch_size (shuffle (lcg (lcg seed)) split.pool_indices)).length
          ((chunks cfg.batch_size (shuffle (lcg seed) split.labeled_indices)).length +
            (chunks cfg.batch_size (shuffle (lcg (lcg seed)) split.pool_indices)).length)
          (chunks cfg.batch_size (shuffle (lcg seed) split.labeled_indices))
          (chunks cfg.batch_size (shuffle (lcg (lcg seed)) split.pool_indices)) 0 0).filterMap
            unlabeledPayload :=
        List.mem_filterMap.mpr ⟨a, ha2, hfa⟩
      rwa [ratioMergeFuel_filterMap_unlabeled] at this
    | none =>
      rw [hmp, hsc] at hpl
      rwa [ratioMergeFuel_filterMap_unlabeled] at hpl

theorem label_cons_of_lt (s : Split) (i : Nat) (rest : List Nat) (h : i < s.total_size) :
    s.label (i :: rest) = (labelOne s i).label rest := by
  simp only [Split.label]
  rw [if_pos h]

/-! ### The claims. -/

/-- C4: for every reachable state of a `LabeledPoolSplit` (after
construction and any sequence of `label` / `label_randomly` operations),
`labeled_indices` and `pool_indices` are disjoint and their union equals
the full index range `[0, total_size)`; equivalently
`labeled_count() + pool_count() = total_size` at all times. -/
theorem split_partition_invariant (s : Split) (h : Reachable s) :
    (∀ i, ¬(i ∈ s.labeled_indices ∧ i ∈ s.pool_indices)) ∧
    (∀ i, (i ∈ s.labeled_indices ∨ i ∈ s.pool_indices) ↔ i < s.total_size) ∧
    s.labeled_count + s.pool_count = s.total_size := by
  obtain ⟨_, _, hdisj, huniv, hlen⟩ := reachable_inv s h
  exact ⟨fun i hc => hdisj i hc.1 hc.2, huniv, hlen⟩

/-- Witness for C4 at the freshly constructed split of size 3. -/
theorem split_partition_invariant_witness :
    (∀ i, ¬(i ∈ (⟨3, [], [0, 1, 2]⟩ : Split).labeled_indices ∧
            i ∈ (⟨3, [], [0, 1, 2]⟩ : Split).pool_indices)) ∧
    (∀ i, (i ∈ (⟨3, [], [0, 1, 2]⟩ : Split).labeled_indices ∨
           i ∈ (⟨3, [], [0, 1, 2]⟩ : Split).pool_indices) ↔ i < 3) ∧
    (⟨3, [], [0, 1, 2]⟩ : Split).labeled_count + (⟨3, [], [0, 1, 2]⟩ : Split).pool_count = 3 :=
  split_partition_invariant ⟨3, [], [0, 1, 2]⟩ (Reachable.new 3 ⟨3, [], [0, 1, 2]⟩ rfl)

/-- C5: labeling is idempotent — for every split state and every
`i < total_size`, labeling `i` twice within one call (`label [i, i]`) or
across two calls produces the same state as labeling it once; duplicates
are silently ignored, not errors. -/
theorem split_label_idempotent (s : Split) (i : Nat) (h : i < s.total_size) :
    s.label [i, i] = s.label [i] ∧
    ∀ s2, s.label [i] = Except.ok s2 → s2.label [i] = Except.ok s2 := by
  have htot : i < (labelOne s i).total_size := by
    rw [labelOne_total_size]
    exact h
  constructor
  · rw [label_cons_of_lt s i [i] h, label_cons_of_lt s i [] h,
      label_cons_of_lt (labelOne s i) i [] htot]
    simp only [Split.label]
    rw [labelOne_idem]
  · intro s2 he
    rw [label_single s i h] at he
    cases he
    rw [label_cons_of_lt (labelOne s i) i [] htot]
    simp only [Split.label]
    rw [labelOne_idem]

/-- Witness for C5: labeling index 0 twice in a fresh split of size 2. -/
theorem split_label_idempotent_witness :
    (⟨2, [], [0, 1]⟩ : Split).label [0, 0] = (⟨2, [], [0, 1]⟩ : Split).label [0] ∧
    ∀ s2, (⟨2, [], [0, 1]⟩ : Split).label [0] = Except.ok s2 → s2.label [0] = Except.ok s2 :=
  split_label_idempotent ⟨2, [], [0, 1]⟩ 0 (by decide)

/-- C6: `label_randomly(count)` fails with `InsufficientPool` exactly when
`count` exceeds the current pool size, and a `label` call fails (with
`IndexOutOfRange`) exactly when some requested index lies outside
`[0, total_size)`.  Failing calls return only the error value: in this
pure embedding the caller's split is untouched, so no partial labeling can
be observed on failure. -/
theorem split_mutation_errors (s : Split) (count seed : Nat) (idxs : List Nat) :
    (s.label_randomly count seed = Except.error SplitError.insufficientPool ↔
      s.pool_count < count) ∧
    ((∃ e, s.label idxs = Except.error e) ↔ ∃ i ∈ idxs, s.total_size ≤ i) := by
  constructor
  · unfold Split.label_randomly
    by_cases hc : count ≤ s.pool_indices.length
    · rw [if_pos hc]
      simp only [Split.pool_count]
      constructor
      · intro hcon
        exact Except.noConfusion hcon
      · intro hlt
        exact absurd hlt (by omega)
    · rw [if_neg hc]
      simp only [Split.pool_count]
      constructor
      · intro _
        omega
      · intro _
        trivial
  · exact label_error_iff idxs s

/-- Witness for C6: drawing 3 from a pool of 2 fails, and labeling index 5
in a split of size 2 fails. -/
theorem split_mutation_errors_witness :
    ((⟨2, [], [0, 1]⟩ : Split).label_randomly 3 0 = Except.error SplitError.insufficientPool ↔
      (⟨2, [], [0, 1]⟩ : Split).pool_count < 3) ∧
    ((∃ e, (⟨2, [], [0, 1]⟩ : Split).label [5] = Except.error e) ↔
      ∃ i ∈ [5], (⟨2, [], [0, 1]⟩ : Split).total_size ≤ i) :=
  split_mutation_errors ⟨2, [], [0, 1]⟩ 3 0 [5]

/-- C7: two iterator instances constructed over identical split states with
identical (set) `shuffle_seed` produce identical sequences of tagged
batches, whatever external entropy each instance would otherwise draw. -/
theorem ssl_iterator_deterministic_under_seed (s : Split) (cfg : IterConfig) (sd : Nat)
    (h : cfg.shuffle_seed = some sd) (e1 e2 n : Nat) :
    batchStream s cfg e1 n = batchStream s cfg e2 n := by
  simp only [batchStream, effectiveSeed, h]

/-- Witness for C7 with seed 7 and entropies 5 and 99. -/
theorem ssl_iterator_deterministic_under_seed_witness :
    batchStream ⟨2, [0], [1]⟩ ⟨1, none, none, some 7⟩ 5 1 =
      batchStream ⟨2, [0], [1]⟩ ⟨1, none, none, some 7⟩ 99 1 :=
  ssl_iterator_deterministic_under_seed ⟨2, [0], [1]⟩ ⟨1, none, none, some 7⟩ 7 rfl 5 99 1

/-- C8: constructing a `PIModel` with `baseline` set and `p ≠ 1` fails via
the assertion on line 77 of `experiments/pi_model.py`; with `baseline` set,
construction succeeds exactly when `p == 1`. -/
theorem pi_model_baseline_assertion (tl pl : Nat) (hp : PIHparams)
    (hbase : hp.baseline = true) :
    (hp.p ≠ some 1 → PIModel.init tl pl hp = Except.error PIError.assertionError) ∧
    ((PIModel.init tl pl hp).isOk = true ↔ hp.p = some 1) := by
  simp only [PIModel.init]
  constructor
  · intro hne
    rw [if_pos ⟨hbase, hne⟩]
  · by_cases hpe : hp.p = some 1
    · rw [if_neg (fun hc => hc.2 hpe)]
      simp [Except.isOk, Except.toBool, hpe]
    · rw [if_pos ⟨hbase, hpe⟩]
      simp [Except.isOk, Except.toBool, hpe]

/-- Witness for C8 at `baseline = true`, `p = 1`. -/
theorem pi_model_baseline_assertion_witness :
    ((⟨true, some 1, 100, 3 / 1000, 80, 50, 300, 100⟩ : PIHparams).p ≠ some 1 →
      PIModel.init 5 10 ⟨true, some 1, 100, 3 / 1000, 80, 50, 300, 100⟩ =
        Except.error PIError.assertionError) ∧
    ((PIModel.init 5 10 ⟨true, some 1, 100, 3 / 1000, 80, 50, 300, 100⟩).isOk = true ↔
      (⟨true, some 1, 100, 3 / 1000, 80, 50, 300, 100⟩ : PIHparams).p = some 1) :=
  pi_model_baseline_assertion 5 10 ⟨true, some 1, 100, 3 / 1000, 80, 50, 300, 100⟩ rfl

/-- C9: outside training mode, `PIModel.forward(x)` is exactly
`network(x)` — the `RandomTranslation` and `GaussianNoise` augmentations
are skipped, so evaluation and test passes see the unmodified input. -/
theorem pi_model_forward_eval_identity {α : Type}
    (network random_crop gaussian_noise : α → α) (x : α) :
    PIModel.forward false network random_crop gaussian_noise x = network x :=
  rfl

/-- C10: `optimizer_step` rewrites the parameter groups' learning rates to
`rampup_value() * lr` exactly while `current_epoch < rampup_stop` and
leaves them unchanged for every later epoch, while `step()` and
`zero_grad()` run on every call regardless of the epoch. -/
theorem pi_model_optimizer_step_frame (ce : Nat) (hp : PIHparams) (rv : Rat)
    (opt : OptimizerState) :
    (hp.rampup_stop ≤ ce →
      (PIModel.optimizer_step ce hp rv opt).param_groups = opt.param_groups) ∧
    (ce < hp.rampup_stop →
      (PIModel.optimizer_step ce hp rv opt).param_groups
        = opt.param_groups.map (fun pg => { pg with lr := rv * hp.lr })) ∧
    (PIModel.optimizer_step ce hp rv opt).step_calls = opt.step_calls + 1 ∧
    (PIModel.optimizer_step ce hp rv opt).zero_grad_calls = opt.zero_grad_calls + 1 := by
  simp only [PIModel.optimizer_step]
  by_cases h : ce < hp.rampup_stop
  · rw [if_pos h]
    exact ⟨fun hc => absurd h (by omega), fun _ => rfl, rfl, rfl⟩
  · rw [if_neg h]
    by_cases h2 : hp.epochs - hp.rampdown_start < ce
    · rw [if_pos h2]
      exact ⟨fun _ => rfl, fun hc => absurd hc h, rfl, rfl⟩
    · rw [if_neg h2]
      exact ⟨fun _ => rfl, fun hc => absurd hc h, rfl, rfl⟩

/-- Witness for C10 at epoch 5 with `rampup_stop = 3` (past ramp-up). -/
theorem pi_model_optimizer_step_frame_witness :
    ((⟨true, some 1, 100, 3 / 1000, 3, 50, 300, 100⟩ : PIHparams).rampup_stop ≤ 5 →
      (PIModel.optimizer_step 5 ⟨true, some 1, 100, 3 / 1000, 3, 50, 300, 100⟩ 1
        ⟨[⟨2, 0⟩], 0, 0⟩).param_groups = [⟨2, 0⟩]) ∧
    (5 < (⟨true, some 1, 100, 3 / 1000, 3, 50, 300, 100⟩ : PIHparams).rampup_stop →
      (PIModel.optimizer_step 5 ⟨true, some 1, 100, 3 / 1000, 3, 50, 300, 100⟩ 1
        ⟨[⟨2, 0⟩], 0, 0⟩).param_groups
          = List.map (fun pg => { pg with lr := 1 * (3 / 1000 : Rat) }) [(⟨2, 0⟩ : ParamGroup)]) ∧
    (PIModel.optimizer_step 5 ⟨true, some 1, 100, 3 / 1000, 3, 50, 300, 100⟩ 1
        ⟨[⟨2, 0⟩], 0, 0⟩).step_calls = 0 + 1 ∧
    (PIModel.optimizer_step 5 ⟨true, some 1, 100, 3 / 1000, 3, 50, 300, 100⟩ 1
        ⟨[⟨2, 0⟩], 0, 0⟩).zero_grad_calls = 0 + 1 :=
  pi_model_optimizer_step_frame 5 ⟨true, some 1, 100, 3 / 1000, 3, 50, 300, 100⟩ 1 ⟨[⟨2, 0⟩], 0, 0⟩

/-- C2: in ratio mode (`p` and `num_steps` both unset), for every split,
seed and `batch_size ≥ 1`, the multiset of labeled indices emitted across
one full epoch equals exactly the split's `labeled_indices` and the
multiset of pool indices emitted equals exactly `pool_indices` — no sample
skipped or duplicated within an epoch. -/
theorem ssl_ratio_epoch_coverage (s : Split) (cfg : IterConfig) (seed : Nat)
    (hp : cfg.mix_probability = none) (hn : cfg.step_count = none)
    (_hb : 1 ≤ cfg.batch_size) :
    ((epochBatches s cfg seed).filterMap labeledPayload).flatten.Perm s.labeled_indices ∧
    ((epochBatches s cfg seed).filterMap unlabeledPayload).flatten.Perm s.pool_indices := by
  constructor
  · rw [epoch_filterMap_labeled s cfg seed hp hn, chunks_flatten]
    exact shuffle_perm _ _
  · rw [epoch_filterMap_unlabeled s cfg seed hp hn, chunks_flatten]
    exact shuffle_perm _ _

/-- Witness for C2 on a 4-element split with batch size 2. -/
theorem ssl_ratio_epoch_coverage_witness :
    ((epochBatches ⟨4, [0, 2], [1, 3]⟩ ⟨2, none, none, none⟩ 0).filterMap
        labeledPayload).flatten.Perm [0, 2] ∧
    ((epochBatches ⟨4, [0, 2], [1, 3]⟩ ⟨2, none, none, none⟩ 0).filterMap
        unlabeledPayload).flatten.Perm [1, 3] :=
  ssl_ratio_epoch_coverage ⟨4, [0, 2], [1, 3]⟩ ⟨2, none, none, none⟩ 0 rfl rfl (by decide)

/-- C3: every batch yielded by the iterator is homogeneous — a
labeled-tagged batch contains only indices of the split's labeled side and
an unlabeled-tagged batch only pool indices; no batch mixes the two
populations, in any mixing mode. -/
theorem ssl_batch_homogeneous (s : Split) (cfg : IterConfig) (seed : Nat)
    (b : Origin × List Nat) (hb : b ∈ epochBatches s cfg seed) :
    (b.1 = Origin.labeled → ∀ i ∈ b.2, i ∈ s.labeled_indices) ∧
    (b.1 = Origin.unlabeled → ∀ i ∈ b.2, i ∈ s.pool_indices) := by
  obtain ⟨o, pl⟩ := b
  cases o with
  | labeled =>
    constructor
    · intro _ i hi
      have hfm : pl ∈ (epochBatches s cfg seed).filterMap labeledPayload :=
        List.mem_filterMap.mpr ⟨(Origin.labeled, pl), hb, rfl⟩
      have hc := epoch_labeled_payload_sub s cfg seed pl hfm
      have hper : i ∈ shuffle (lcg seed) s.labeled_indices :=
        chunks_mem cfg.batch_size _ pl hc i hi
      exact (shuffle_perm _ _).mem_iff.mp hper
    · intro hco
      exact Origin.noConfusion hco
  | unlabeled =>
    constructor
    · intro hco
      exact Origin.noConfusion hco
    · intro _ i hi
      have hfm : pl ∈ (epochBatches s cfg seed).filterMap unlabeledPayload :=
        List.mem_filterMap.mpr ⟨(Origin.unlabeled, pl), hb, rfl⟩
      have hc := epoch_unlabeled_payload_sub s cfg seed pl hfm
      have hper : i ∈ shuffle (lcg (lcg seed)) s.pool_indices :=
        chunks_mem cfg.batch_size _ pl hc i hi
      exact (shuffle_perm _ _).mem_iff.mp hper

/-- Witness for C3 at a concrete batch of a 2-element split. -/
theorem ssl_batch_homogeneous_witness :
    ((Origin.labeled, [0]) : Origin × List Nat) ∈ epochBatches ⟨2, [0], [1]⟩ ⟨1, none, none, none⟩ 0 ∧
    ((((Origin.labeled, [0]) : Origin × List Nat).1 = Origin.labeled →
        ∀ i ∈ (((Origin.labeled, [0]) : Origin × List Nat)).2, i ∈ [0]) ∧
     (((Origin.labeled, [0]) : Origin × List Nat).1 = Origin.unlabeled →
        ∀ i ∈ (((Origin.labeled, [0]) : Origin × List Nat)).2, i ∈ [1])) :=
  ⟨by decide,
    ssl_batch_homogeneous ⟨2, [0], [1]⟩ ⟨1, none, none, none⟩ 0 (Origin.labeled, [0]) (by decide)⟩

/-- Fetching samples keeps the labeled payload stream aligned: mapping the
dataset accessor over each batch commutes with extracting labeled payloads. -/
theorem filterMap_labeled_map_fetch (g : Nat → Nat) (L : List (Origin × List Nat)) :
    (L.map (fetchBatch g)).filterMap labeledPayload
      = (L.filterMap labeledPayload).map (List.map g) := by
  induction L with
  | nil => simp
  | cons b t ih =>
    obtain ⟨o, pl⟩ := b
    cases o <;> simp [fetchBatch, labeledPayload, List.filterMap_cons, ih]

/-- Fetching samples keeps the unlabeled payload stream aligned. -/
theorem filterMap_unlabeled_map_fetch (g : Nat → Nat) (L : List (Origin × List Nat)) :
    (L.map (fetchBatch g)).filterMap unlabeledPayload
      = (L.filterMap unlabeledPayload).map (List.map g) := by
  induction L with
  | nil => simp
  | cons b t ih =>
    obtain ⟨o, pl⟩ := b
    cases o <;> simp [fetchBatch, unlabeledPayload, List.filterMap_cons, ih]

/-- On labeled indices `0..99` the test dataset returns the evens. -/
theorem testGet_labeled_map :
    (List.range 100).map testGet = (List.range 100).map (fun k => 2 * k) := by
  apply List.map_congr_left
  intro a ha
  have h : a < 100 := List.mem_range.mp ha
  simp [testGet, h]

/-- On pool indices `100..1099` the test dataset returns the odds. -/
theorem testGet_pool_map :
    (List.range' 100 1000).map testGet = (List.range 1000).map (fun k => 2 * k + 1) := by
  rw [List.range'_eq_map_range, List.map_map]
  apply List.map_congr_left
  intro a ha
  have h : ¬(100 + a < 100) := by omega
  simp [Function.comp, testGet, h]

theorem evens_nodup : ((List.range 100).map (fun k => 2 * k)).Nodup := by
  apply List.Nodup.map
  · intro a b hab
    simpa using hab
  · exact List.nodup_range 100

theorem odds_nodup : ((List.range 1000).map (fun k => 2 * k + 1)).Nodup := by
  apply List.Nodup.map
  · intro a b hab
    simp only at hab
    omega
  · exact List.nodup_range 1000

/-- C1: in ratio mode with `batch_size = 10` over the test split (100
labeled samples holding the even values `0..198`, 1000 pool samples holding
the odd values `1..1999`), one epoch yields exactly 10 labeled batches and
100 unlabeled batches, the concatenation of all labeled payloads is exactly
the 100 even values with no repeats, and the concatenation of all unlabeled
payloads is exactly the 1000 odd values with no repeats — for every seed. -/
theorem ssl_balanced_interleaving_scenario (seed : Nat) :
    ((epochSamples testGet testSplit testCfg seed).filterMap labeledPayload).length = 10 ∧
    ((epochSamples testGet testSplit testCfg seed).filterMap unlabeledPayload).length = 100 ∧
    ((epochSamples testGet testSplit testCfg seed).filterMap labeledPayload).flatten.Perm
      ((List.range 100).map (fun k => 2 * k)) ∧
    ((epochSamples testGet testSplit testCfg seed).filterMap labeledPayload).flatten.Nodup ∧
    ((epochSamples testGet testSplit testCfg seed).filterMap unlabeledPayload).flatten.Perm
      ((List.range 1000).map (fun k => 2 * k + 1)) ∧
    ((epochSamples testGet testSplit testCfg seed).filterMap unlabeledPayload).flatten.Nodup := by
  have hl : (epochSamples testGet testSplit testCfg seed).filterMap labeledPayload
      = (chunks 10 (shuffle (lcg seed) (List.range 100))).map (List.map testGet) := by
    simp only [epochSamples]
    rw [filterMap_labeled_map_fetch, epoch_filterMap_labeled testSplit testCfg seed rfl rfl]
    rfl
  have hu : (epochSamples testGet testSplit testCfg seed).filterMap unlabeledPayload
      = (chunks 10 (shuffle (lcg (lcg seed)) (List.range' 100 1000))).map (List.map testGet) := by
    simp only [epochSamples]
    rw [filterMap_unlabeled_map_fetch, epoch_filterMap_unlabeled testSplit testCfg seed rfl rfl]
    rfl
  have hlflat : ((epochSamples testGet testSplit testCfg seed).filterMap labeledPayload).flatten
      = (shuffle (lcg seed) (List.range 100)).map testGet := by
    rw [hl, ← List.map_flatten, chunks_flatten]
  have huflat : ((epochSamples testGet testSplit testCfg seed).filterMap unlabeledPayload).flatten
      = (shuffle (lcg (lcg seed)) (List.range' 100 1000)).map testGet := by
    rw [hu, ← List.map_flatten, chunks_flatten]
  have hlperm : ((epochSamples testGet testSplit testCfg seed).filterMap
      labeledPayload).flatten.Perm ((List.range 100).map (fun k => 2 * k)) := by
    rw [hlflat, ← testGet_labeled_map]
    exact (shuffle_perm _ _).map testGet
  have huperm : ((epochSamples testGet testSplit testCfg seed).filterMap
      unlabeledPayload).flatten.Perm ((List.range 1000).map (fun k => 2 * k + 1)) := by
    rw [huflat, ← testGet_pool_map]
    exact (shuffle_perm _ _).map testGet
  refine ⟨?_, ?_, hlperm, hlperm.symm.nodup evens_nodup, huperm, huperm.symm.nodup odds_nodup⟩
  · rw [hl, List.length_map, chunks_length 10 (by omega), shuffle_length, List.length_range]
  · rw [hu, List.length_map, chunks_length 10 (by omega), shuffle_length, List.length_range']
